import Mathlib

/-!
# Verification of the fitmerge pipeline

This file gives a shallow embedding, in Lean 4, of the core pipeline of the
fitmerge repository (merge_rides.py, visualize_ride.py) and proves properties
of it.

Modelling conventions:
* Python floats that only carry data (coordinates, elevations, temperatures)
  are modelled as rationals; where a claim depends on binary64 rounding
  behaviour (the chart downsampler's stride index) an explicit model of
  round-to-nearest-even binary64 arithmetic over rationals is used.
* Timestamps are modelled as integers (seconds); a FIT record may lack a
  timestamp, so extracted samples carry an optional timestamp.
* A FIT field that is missing and a FIT field that is present with a null
  value are collapsed into a single `Option`, since extract_fit_data treats
  the two identically (it skips the sample in both cases for the position
  fields and stores None in both cases for the optional fields).
* A file whose decoding raises is modelled as `none`; extract_fit_data
  returns an empty list for it.
* pandas sort_values on the timestamp column guarantees only a permutation
  of the rows that is sorted by timestamp: its default kind (quicksort) is
  not stable, so the relative order of rows with equal timestamps after
  sorting is unspecified. That contract is modelled relationally by
  sortedByTimestampRel, and claims that depend on the tie order are settled
  against it. The executable model sortByTimestamp (List.mergeSort) is one
  sort satisfying the contract and is used only where a claim does not
  depend on the tie order. Missing timestamps (pandas NaT) sort last, and
  drop_duplicates on the timestamp column is a scan keeping the first
  occurrence of each timestamp value.
-/

namespace FitMerge

/-- Canonical sample record produced by extract_fit_data in merge_rides.py:
a dict with timestamp, lat, lon, ele, hr, cad, temp, where everything but
lat and lon may be None. -/
structure Point where
  timestamp : Option Int
  lat : ℚ
  lon : ℚ
  ele : Option ℚ
  hr : Option Nat
  cad : Option Nat
  temp : Option ℚ
deriving DecidableEq, Repr

/-- Conversion factor for semicircle coordinates used in merge_rides.py,
taken as the exact value of the decimal literal 8.381903171539307e-08. -/
def COORD_FACTOR : ℚ := 8381903171539307 / 10 ^ 23

/-- One frame of a decoded FIT file, restricted to the fields that
extract_fit_data reads. `isRecord` models
frame.frame_type == FIT_FRAME_DATA and frame.name == 'record'; each data
field is `none` when the field is missing or carries a null value. -/
structure FitFrame where
  isRecord : Bool
  positionLat : Option Int
  positionLong : Option Int
  enhancedAltitude : Option ℚ
  altitude : Option ℚ
  timestamp : Option Int
  heartRate : Option Nat
  cadence : Option Nat
  temperature : Option ℚ
deriving DecidableEq, Repr

/-- Sample built from a record frame with non-null position values, as in
the points.append call of extract_fit_data: elevation prefers
enhanced_altitude over altitude, all other optional fields pass through. -/
def mkPoint (f : FitFrame) (la lo : Int) : Point :=
  { timestamp := f.timestamp
    lat := la * COORD_FACTOR
    lon := lo * COORD_FACTOR
    ele := match f.enhancedAltitude with
      | some e => some e
      | none => f.altitude
    hr := f.heartRate
    cad := f.cadence
    temp := f.temperature }

/-- Loop body of extract_fit_data over the frames of one successfully
opened FIT file: a frame contributes a sample exactly when it is a record
frame with non-null position_lat and position_long values. -/
def extractLoop : List FitFrame → List Point
  | [] => []
  | f :: fs =>
    if f.isRecord then
      match f.positionLat, f.positionLong with
      | some la, some lo => mkPoint f la lo :: extractLoop fs
      | some _, none => extractLoop fs
      | none, some _ => extractLoop fs
      | none, none => extractLoop fs
    else extractLoop fs

/-- extract_fit_data in merge_rides.py: a file input is `none` when
decoding raises (the outer except returns an empty list) and
`some frames` when the file decodes to the given frames. -/
def extract_fit_data : Option (List FitFrame) → List Point
  | none => []
  | some frames => extractLoop frames

/-- Total preorder on optional timestamps used to model
df.sort_values(by='timestamp'): missing timestamps (pandas NaT) sort last. -/
def tsLE : Option Int → Option Int → Bool
  | _, none => true
  | none, some _ => false
  | some a, some b => a ≤ b

/-- Strict version of `tsLE`, the sense in which merged timestamps are
strictly increasing. -/
def tsLT : Option Int → Option Int → Prop
  | some _, none => True
  | none, _ => False
  | some a, some b => a < b

/-- Comparison of two points used by the sort: by timestamp only. -/
def ptLE (p q : Point) : Bool := tsLE p.timestamp q.timestamp

/-- One admissible result of df.sort_values(by='timestamp'): a sort of the
samples by timestamp. The source's sort is pandas' default quicksort, whose
ordering of equal timestamps is unspecified; properties that depend on that
tie order are settled against the relational contract sortedByTimestampRel
below, and this executable sort is used only where they do not. -/
def sortByTimestamp (l : List Point) : List Point := l.mergeSort ptLE

/-- Contract of df.sort_values(by='timestamp') with the default (unstable)
quicksort kind: the result is some permutation of the input that is sorted
by timestamp; nothing constrains the relative order of samples with equal
timestamps. -/
def sortedByTimestampRel (l sorted : List Point) : Prop :=
  List.Perm sorted l ∧ sorted.Pairwise (fun p q => ptLE p q = true)

/-- Scan underlying drop_duplicates(subset=['timestamp']): keep a sample
exactly when its timestamp value has not been seen before. -/
def dropDuplicatesAux (seen : List (Option Int)) : List Point → List Point
  | [] => []
  | p :: ps =>
    if p.timestamp ∈ seen then dropDuplicatesAux seen ps
    else p :: dropDuplicatesAux (p.timestamp :: seen) ps

/-- Model of df.drop_duplicates(subset=['timestamp']): keep the first
occurrence of each timestamp value. -/
def drop_duplicates (l : List Point) : List Point := dropDuplicatesAux [] l

/-- The merge step of main in merge_rides.py applied to the concatenated
per-file sample list: sort by timestamp, then drop duplicate timestamps
keeping the first. -/
def mergeDedup (all_data : List Point) : List Point :=
  drop_duplicates (sortByTimestamp all_data)

/-- Concatenation of the per-source sample sequences, as produced by the
extend loop of main, followed by the merge step. -/
def mergedTrack (sources : List (List Point)) : List Point :=
  mergeDedup sources.flatten

/-- The all_data list of main for a given list of decoded input files. -/
def allDataOf (files : List (Option (List FitFrame))) : List Point :=
  (files.map extract_fit_data).flatten

/-- Observable outcome of main in merge_rides.py: early return because no
.fit files were found, early return because no valid data was extracted, or
an output file written with a final track (the Bool records whether the
simplification call raised and was caught). The branch creating the input
folder is environmental and not modelled. -/
inductive Outcome where
  | noFiles : Outcome
  | noData : Outcome
  | wrote : List Point → Bool → Outcome
deriving DecidableEq, Repr

/-- main of merge_rides.py over decoded file contents, with the gpxpy
simplification call abstracted as a function that either returns the
simplified track or fails (models an exception, which main catches and
then still writes the merged, unsimplified track). -/
def mainRun (files : List (Option (List FitFrame)))
    (simplify : List Point → Option (List Point)) : Outcome :=
  if files.isEmpty then Outcome.noFiles
  else if (allDataOf files).isEmpty then Outcome.noData
  else
    match simplify (mergeDedup (allDataOf files)) with
    | some t => Outcome.wrote t false
    | none => Outcome.wrote (mergeDedup (allDataOf files)) true

/-- Concrete record frame used in witnesses: position present, a timestamp
of 100 s, all optional sensor fields absent. -/
def sampleFrame : FitFrame :=
  { isRecord := true, positionLat := some 0, positionLong := some 0
    enhancedAltitude := none, altitude := none, timestamp := some 100
    heartRate := none, cadence := none, temperature := none }

/-- Concrete sample used in witnesses: timestamp 100 s at the origin. -/
def ptA : Point :=
  { timestamp := some 100, lat := 0, lon := 0, ele := none, hr := none
    cad := none, temp := none }

/-- Concrete sample used in witnesses: the same timestamp as ptA but a
different position, as recorded by an overlapping second source. -/
def ptB : Point :=
  { timestamp := some 100, lat := 1, lon := 1, ele := none, hr := none
    cad := none, temp := none }

/-- Concrete record frame used in witnesses: position present but no
timestamp field. -/
def sampleFrameNoTime : FitFrame :=
  { isRecord := true, positionLat := some 0, positionLong := some 0
    enhancedAltitude := none, altitude := none, timestamp := none
    heartRate := none, cadence := none, temperature := none }

/-- Point of the parsed GPX as used by visualize_ride.py: a location and a
timestamp in seconds. The source stores point dicts with a loc pair and a
time; the segment-drawing loop appends only the loc to current_segment, and
the embedding keeps the whole point so that timestamp properties of the
emitted polylines can be stated (the emitted polyline of the source is the
image of the emitted segment under the loc projection). -/
structure VPoint where
  lat : ℚ
  lon : ℚ
  time : Int
deriving DecidableEq, Repr

/-- State of the segment-drawing loop of main in visualize_ride.py:
the polylines emitted so far, the accumulating current_segment, and
segment_idx. -/
structure SegState where
  emitted : List (List VPoint)
  current : List VPoint
  idx : Nat
deriving DecidableEq, Repr

/-- One iteration of the segment-drawing loop of main in visualize_ride.py
at point `p` with lookahead `nextP` (the point at index i+1, or `none` when
`p` is last). The gap threshold `thr` is in seconds; the source fixes it to
GAP_THRESHOLD_HOURS * 3600 = 18000. A segment is emitted only when a break
or end of track is reached with more than one accumulated point; otherwise
the accumulated points are kept (a single point before a break is neither
emitted nor cleared). -/
def segStep (thr : Int) (st : SegState) (p : VPoint) (nextP : Option VPoint) :
    SegState :=
  let current := st.current ++ [p]
  let isLast := nextP.isNone
  let shouldBreak := match nextP with
    | some q => decide (thr < q.time - p.time)
    | none => false
  if (shouldBreak || isLast) && decide (1 < current.length) then
    { emitted := st.emitted ++ [current], current := [], idx := st.idx + 1 }
  else
    { emitted := st.emitted, current := current, idx := st.idx }

/-- The segment-drawing loop of main in visualize_ride.py, iterating
`segStep` over the points with one-point lookahead. -/
def segLoop (thr : Int) : SegState → List VPoint → SegState
  | st, [] => st
  | st, p :: rest => segLoop thr (segStep thr st p rest.head?) rest

/-- Full segment-drawing pass of main in visualize_ride.py, starting from
an empty current segment and segment_idx = 0. The final idx field is the
value stored as the reported segment count (stats days). -/
def drawSegments (thr : Int) (points : List VPoint) : SegState :=
  segLoop thr { emitted := [], current := [], idx := 0 } points

/-- Executable form of the within-segment gap property of the spec: every
pair of consecutive samples of the list is at most `thr` seconds apart. -/
def gapsOK (thr : Int) : List VPoint → Bool
  | [] => true
  | [_] => true
  | a :: b :: r => decide (b.time - a.time ≤ thr) && gapsOK thr (b :: r)

/-- Gap bound between two consecutive samples, in seconds. -/
def gapLE (thr : Int) (a b : VPoint) : Prop := b.time - a.time ≤ thr

/-- Boundary relation between consecutive emitted segments: the gap from
the last sample of the first to the first sample of the second strictly
exceeds the threshold. -/
def boundaryGT (thr : Int) (s t : List VPoint) : Prop :=
  ∀ a b, s.getLast? = some a → t.head? = some b → thr < b.time - a.time

/-- Invariant of the segment-drawing loop relating the state to the
remaining input: emitted segments have more than one sample and satisfy
the gap bound on all but their first gap, consecutive emitted segments are
separated by more than the threshold, the accumulating segment satisfies
the gap bound on all but its first gap, its last sample is within the
threshold of the next input sample whenever it has at least two samples,
and the last emitted segment is separated by more than the threshold from
the head of the accumulating segment (or, when that is empty, from the
next input sample). -/
def SegInv (thr : Int) (st : SegState) (r : List VPoint) : Prop :=
  (∀ s ∈ st.emitted, 1 < s.length ∧ s.tail.Chain' (gapLE thr)) ∧
  st.emitted.Chain' (boundaryGT thr) ∧
  st.current.tail.Chain' (gapLE thr) ∧
  (∀ a b, 2 ≤ st.current.length → st.current.getLast? = some a →
      r.head? = some b → gapLE thr a b) ∧
  (∀ s a, st.emitted.getLast? = some s → s.getLast? = some a →
      (∀ b, st.current.head? = some b → thr < b.time - a.time) ∧
      (st.current = [] → ∀ b, r.head? = some b → thr < b.time - a.time))

/-! ## Binary64 model for the chart downsampler

The downsampling loop of process_gpx computes the stride index as
int(i * step) with step = len(elevation_profile) / CHART_POINTS_COUNT
evaluated in Python floats (IEEE binary64). The model below implements
round-to-nearest-even binary64 rounding of a rational, exact in the normal
range (no overflow or subnormals, which cannot occur for the sizes
involved). -/

/-- Fuel-driven base-2 logarithm on naturals: natLog2Aux fuel n is the
number of halvings needed to bring n below 2, provided fuel ≥ that number. -/
def natLog2Aux : Nat → Nat → Nat
  | 0, _ => 0
  | fuel + 1, n => if n ≤ 1 then 0 else natLog2Aux fuel (n / 2) + 1

/-- Floor of the base-2 logarithm of a natural number (0 for 0 and 1). -/
def natLog2 (n : Nat) : Nat := natLog2Aux n n

/-- Integer power of two as a rational. -/
def pow2 (e : Int) : ℚ :=
  if 0 ≤ e then ((2 ^ e.toNat : Nat) : ℚ) else 1 / ((2 ^ (-e).toNat : Nat) : ℚ)

/-- Floor of the base-2 logarithm of a positive rational: the unique k with
pow2 k ≤ q < pow2 (k+1). -/
def ratLog2 (q : ℚ) : Int :=
  let g : Int := (natLog2 q.num.natAbs : Int) - (natLog2 q.den : Int)
  if pow2 g ≤ q then g else g - 1

/-- Floor of a nonnegative rational as a natural number. -/
def floorNonneg (q : ℚ) : Nat := q.num.toNat / q.den

/-- Round-to-nearest-even of a nonnegative rational to an integer: nearest
integer, ties to the even one. -/
def rnEvenNat (x : ℚ) : Nat :=
  if x - (floorNonneg x : ℚ) < 1 / 2 then floorNonneg x
  else if 1 / 2 < x - (floorNonneg x : ℚ) then floorNonneg x + 1
  else if floorNonneg x % 2 = 0 then floorNonneg x else floorNonneg x + 1

/-- Round-to-nearest-even binary64 value of a nonnegative rational in the
normal range: the nearest rational of the form m * 2^e with m a 53-bit
mantissa, ties going to the even mantissa. -/
def fl53 (q : ℚ) : ℚ :=
  if q = 0 then 0
  else (rnEvenNat (q * pow2 (-(ratLog2 q - 52))) : ℚ) * pow2 (ratLog2 q - 52)

/-- Python int() applied to a float: truncation toward zero. -/
def pyInt (q : ℚ) : Int := Int.tdiv q.num (q.den : Int)

/-- Python round(x, 1): rounding to one decimal with ties to even, modelled
on the exact rational value. -/
def round1 (q : ℚ) : ℚ :=
  let t : ℚ := q * 10
  let f : Int := ⌊t⌋
  let r : ℚ := t - (f : ℚ)
  let n : Int :=
    if r < 1 / 2 then f
    else if 1 / 2 < r then f + 1
    else if f % 2 = 0 then f else f + 1
  (n : ℚ) / 10

/-- CHART_POINTS_COUNT of visualize_ride.py. -/
def CHART_POINTS_COUNT : Nat := 400

/-- Stride index int(i * step) of the downsampling loop of process_gpx,
with step = L / 400 and both the division and the multiplication performed
in binary64. -/
def chartIdx (i L : Nat) : Nat :=
  floorNonneg (fl53 ((i : ℚ) * fl53 ((L : ℚ) / (CHART_POINTS_COUNT : ℚ))))

/-- One elevation-profile point of process_gpx: cumulative distance x in km
and elevation y in m (y still a float before downsampling). -/
structure ProfilePoint where
  x : ℚ
  y : ℚ
deriving DecidableEq, Repr

/-- Downsampled chart point: x rounded to one decimal, y truncated to an
integer. -/
structure ChartPoint where
  x : ℚ
  y : Int
deriving DecidableEq, Repr

/-- Result of the downsampling step of process_gpx: either the original
profile untouched (when its length is within the cap) or 400 strided,
rounded points. -/
inductive ChartData where
  | full : List ProfilePoint → ChartData
  | sampled : List ChartPoint → ChartData
deriving DecidableEq, Repr

/-- The downsampling step of process_gpx in visualize_ride.py: when the
profile exceeds CHART_POINTS_COUNT points, pick 400 points at the
float-computed stride indices, rounding x to one decimal and truncating y
to an integer; otherwise leave the profile unchanged. -/
def downsampleChart (profile : List ProfilePoint) : ChartData :=
  if CHART_POINTS_COUNT < profile.length then
    ChartData.sampled ((List.range CHART_POINTS_COUNT).map (fun i =>
      let item := profile.getD (chartIdx i profile.length) ⟨0, 0⟩
      { x := round1 item.x, y := pyInt item.y }))
  else ChartData.full profile

/-- Projection extracting the downsampled point list from a ChartData
value, for stating properties of the sampled branch. -/
def sampledPoints : ChartData → Option (List ChartPoint)
  | ChartData.sampled l => some l
  | ChartData.full _ => none

/-! ## Simplifier

The simplification step of merge_rides.py is the call gpx.simplify(10.0),
whose algorithm lives in the external gpxpy library and is not part of this
repository's sources. It is modelled from the spec below. -/

/-- Index and value of the maximal deviation among the interior points
`m :: ms` relative to the endpoints `a` and `b`, the index clamped to the
list (the clamp is a no-op since the maximum occurs in the list). -/
def dpPick (dev : VPoint → VPoint → VPoint → ℚ) (a b m : VPoint)
    (ms : List VPoint) : Nat × ℚ :=
  ((((m :: ms).map (fun p => dev a b p)).indexOf
      (((m :: ms).map (fun p => dev a b p)).foldl max (dev a b m))) ⊓
    ms.length,
   ((m :: ms).map (fun p => dev a b p)).foldl max (dev a b m))

theorem dpPick_fst_le (dev : VPoint → VPoint → VPoint → ℚ) (a b m : VPoint)
    (ms : List VPoint) : (dpPick dev a b m ms).1 ≤ ms.length :=
  min_le_right _ _

/-- Modelled from the spec: the recursive core of Douglas-Peucker polyline
simplification (section 4.2 of the spec; the implementation, gpxpy's
simplify_polyline, is not under src/). Given the retained endpoints `a` and
`b` and the points `mid` strictly between them, find the interior point of
maximal deviation from the a-b line; if that deviation exceeds the
tolerance, recurse on the two halves, otherwise drop all interior points.
The deviation measure `dev` is kept abstract (the spec requires a
geographically scaled one); the properties proved hold for any measure. -/
def dpAux (dev : VPoint → VPoint → VPoint → ℚ) (eps : ℚ) :
    VPoint → List VPoint → VPoint → List VPoint
  | a, [], b => [a, b]
  | a, m :: ms, b =>
    if (dpPick dev a b m ms).2 ≤ eps then [a, b]
    else
      dpAux dev eps a ((m :: ms).take (dpPick dev a b m ms).1)
          ((m :: ms).getD (dpPick dev a b m ms).1 m) ++
        (dpAux dev eps ((m :: ms).getD (dpPick dev a b m ms).1 m)
          ((m :: ms).drop ((dpPick dev a b m ms).1 + 1)) b).drop 1
termination_by _ mid _ => mid.length
decreasing_by
  · have hple := dpPick_fst_le dev a b m ms
    simp only [List.length_take, List.length_cons]
    omega
  · simp only [List.length_drop, List.length_cons]
    omega

/-- Modelled from the spec: Douglas-Peucker simplification of a whole
track; tracks with at most two points are returned unchanged. -/
def simplifyDP (dev : VPoint → VPoint → VPoint → ℚ) (eps : ℚ) :
    List VPoint → List VPoint
  | [] => []
  | [p] => [p]
  | a :: r :: rs => dpAux dev eps a ((r :: rs).dropLast) ((r :: rs).getLast (by simp))

/-! ## Theorems -/

section DecideSupport

attribute [local semireducible] Rat.mul Rat.add Rat.sub Rat.inv Rat.ofScientific

/-- Claim C5: for the input of three samples at t = 0, 60, 1860 seconds and
gap threshold 1700 s, the segment loop emits exactly the one segment
[t=0, t=60]; the trailing single-sample segment is dropped (it stays in
current and is never emitted), and the final segment_idx, reported as the
segment count, equals the number of emitted segments. -/
theorem C5_segment_scenario :
    (drawSegments 1700 [⟨0, 0, 0⟩, ⟨0, 1, 60⟩, ⟨0, 2, 1860⟩]).emitted =
      [[⟨0, 0, 0⟩, ⟨0, 1, 60⟩]] ∧
    (drawSegments 1700 [⟨0, 0, 0⟩, ⟨0, 1, 60⟩, ⟨0, 2, 1860⟩]).idx =
      (drawSegments 1700 [⟨0, 0, 0⟩, ⟨0, 1, 60⟩, ⟨0, 2, 1860⟩]).emitted.length := by
  decide

/-- Claim C3, counterexample: for samples at t = 0, 20000, 20060 with gap
threshold 18000 s, the first point is followed by a gap exceeding the
threshold, but because a one-point segment is neither emitted nor cleared,
it is glued onto the following points and the single emitted segment
contains an internal gap of 20000 s; the claimed within-segment gap bound
fails. -/
theorem C3_counterexample :
    ¬ (∀ s ∈ (drawSegments 18000
          [⟨0, 0, 0⟩, ⟨0, 1, 20000⟩, ⟨0, 2, 20060⟩]).emitted,
        gapsOK 18000 s = true) := by
  decide

/-- Claim C6, counterexample: for a profile of length 402 whose element j
is (j, j), the claimed strided pick would take element floor(200*402/400)
= 201 as output point 200, but the float stride computation of the code
evaluates int(200 * (402/400)) to 200 in binary64, so the output differs
from the claimed one. -/
theorem C6_counterexample :
    ((sampledPoints (downsampleChart
        ((List.range 402).map (fun (j : ℕ) => (⟨(j : ℚ), (j : ℚ)⟩ : ProfilePoint))))).bind
      (fun l => l[200]?)) = some { x := 200, y := 200 } ∧
    ({ x := 200, y := 200 } : ChartPoint) ≠
      { x := round1 ((201 : ℚ)), y := pyInt ((201 : ℚ)) } ∧
    200 * 402 / 400 = 201 ∧ chartIdx 200 402 = 200 := by
  have hidx : chartIdx 200 402 = 200 := by decide
  refine ⟨?_, ?_, by decide, hidx⟩
  · have hlen : ((List.range 402).map
        (fun (j : ℕ) => (⟨(j : ℚ), (j : ℚ)⟩ : ProfilePoint))).length = 402 := by
      simp
    rw [downsampleChart, hlen]
    rw [if_pos (by norm_num [CHART_POINTS_COUNT])]
    simp only [sampledPoints, Option.bind, CHART_POINTS_COUNT]
    rw [List.getElem?_map, List.getElem?_range (by norm_num)]
    simp only [Option.map, hidx, Option.some.injEq]
    rw [List.getD, List.get?_eq_getElem?, List.getElem?_map,
      List.getElem?_range (by norm_num)]
    simp only [Option.map, Option.getD_some]
    decide
  · intro h
    have hx := congrArg ChartPoint.x h
    simp only at hx
    rw [show round1 ((201 : ℚ)) = 201 by norm_num [round1]] at hx
    norm_num at hx

/-- Claim C4, counterexample: an input set whose extraction yields exactly
one sample produces a merged track with a single sample, yet main does not
stop with an error: it proceeds through simplification and writes the
output file. The only early return is the no-valid-data check before the
merge. -/
theorem C4_counterexample :
    (mergeDedup (allDataOf [some [sampleFrame]])).length = 1 ∧
    mainRun [some [sampleFrame]] (fun t => some t) =
      Outcome.wrote (mergeDedup (allDataOf [some [sampleFrame]])) false := by
  have hall : allDataOf [some [sampleFrame]] = [mkPoint sampleFrame 0 0] := rfl
  have hmerge : mergeDedup [mkPoint sampleFrame 0 0] = [mkPoint sampleFrame 0 0] := by
    unfold mergeDedup sortByTimestamp drop_duplicates
    rw [List.mergeSort_singleton]
    rfl
  constructor
  · rw [hall, hmerge]
    rfl
  · unfold mainRun
    rw [hall, hmerge]
    rfl

end DecideSupport

/-- Claim C4, amended: main returns early (printing a message, raising no
error) exactly when extraction produced zero samples; whenever at least one
sample was extracted — in particular when the merged track has fewer than
2 samples — it continues through simplification and writes an output file. -/
theorem C4_amended_early_return_only_on_empty
    (files : List (Option (List FitFrame)))
    (simplify : List Point → Option (List Point)) (h : files ≠ []) :
    (allDataOf files = [] → mainRun files simplify = Outcome.noData) ∧
    (allDataOf files ≠ [] → ∃ t b, mainRun files simplify = Outcome.wrote t b) := by
  constructor
  · intro hd
    unfold mainRun
    simp [h, hd]
  · intro hd
    unfold mainRun
    simp only [List.isEmpty_eq_true, h, if_false, List.isEmpty_eq_true, hd]
    cases hs : simplify (mergeDedup (allDataOf files)) with
    | some t => exact ⟨t, false, by simp [hs]⟩
    | none => exact ⟨mergeDedup (allDataOf files), true, by simp [hs]⟩

section DecideSupport2

attribute [local semireducible] Rat.mul Rat.add Rat.sub Rat.inv Rat.ofScientific

/-- Witness for the amended claim C4 at a concrete input with one sample. -/
theorem C4_amended_witness :
    ∃ t b, mainRun [some [sampleFrame]] (fun t => some t) = Outcome.wrote t b :=
  (C4_amended_early_return_only_on_empty [some [sampleFrame]] (fun t => some t)
    (by decide)).2 (by decide)

end DecideSupport2

/-- Claim C9: the simplification call is wrapped in try/except in main;
when it fails, main catches the error, reports it, and still writes the
output file containing the merged, unsimplified track, so the pipeline
never fails at the simplification stage. -/
theorem C9_simplify_failure_still_writes
    (files : List (Option (List FitFrame)))
    (simplify : List Point → Option (List Point))
    (hf : files ≠ []) (hd : allDataOf files ≠ [])
    (hs : simplify (mergeDedup (allDataOf files)) = none) :
    mainRun files simplify = Outcome.wrote (mergeDedup (allDataOf files)) true := by
  unfold mainRun
  simp [hf, hd, hs]

section DecideSupport3

attribute [local semireducible] Rat.mul Rat.add Rat.sub Rat.inv Rat.ofScientific

/-- Witness for claim C9 at a concrete input whose simplification fails. -/
theorem C9_witness :
    mainRun [some [sampleFrame]] (fun _ => none) =
      Outcome.wrote (mergeDedup (allDataOf [some [sampleFrame]])) true :=
  C9_simplify_failure_still_writes [some [sampleFrame]] (fun _ => none)
    (by decide) (by decide) rfl

end DecideSupport3

/-- Claim C8: a file whose decoding raises contributes an empty sample
list, the concatenated data of a run with such a file equals that of the
run without it, and for a nonempty remaining file set the whole outcome of
main is unchanged by the failing file: a per-file decode failure never
aborts the merge or the pipeline. -/
theorem C8_decode_failure_isolated
    (xs ys : List (Option (List FitFrame)))
    (simplify : List Point → Option (List Point)) :
    extract_fit_data none = [] ∧
    allDataOf (xs ++ none :: ys) = allDataOf (xs ++ ys) ∧
    (xs ++ ys ≠ [] →
      mainRun (xs ++ none :: ys) simplify = mainRun (xs ++ ys) simplify) := by
  have hdata : allDataOf (xs ++ none :: ys) = allDataOf (xs ++ ys) := by
    unfold allDataOf
    simp [extract_fit_data]
  refine ⟨rfl, hdata, ?_⟩
  intro hne
  unfold mainRun
  rw [hdata]
  have h1 : (xs ++ none :: ys).isEmpty = false := by
    simp
  have h2 : (xs ++ ys).isEmpty = false := by
    simp [List.isEmpty_eq_false, hne]
  rw [h1, h2]

section DecideSupport4

attribute [local semireducible] Rat.mul Rat.add Rat.sub Rat.inv Rat.ofScientific

/-- Witness for claim C8: one good file plus one failing file behave like
the good file alone. -/
theorem C8_witness :
    mainRun [some [sampleFrame], none] (fun t => some t) =
      mainRun [some [sampleFrame]] (fun t => some t) :=
  (C8_decode_failure_isolated [some [sampleFrame]] [] (fun t => some t)).2.2
    (by decide)

end DecideSupport4

/-- Claim C10: a frame contributes a sample exactly when it is a record
frame whose position values are present, in which case the sample's
latitude and longitude are built from them and the timestamp, elevation,
heart rate, cadence and temperature fields pass through unchanged — each
independently possibly absent, so a record with position but no timestamp
is emitted with an absent timestamp. -/
theorem C10_extract_requires_only_position (frames : List FitFrame) :
    (∀ p ∈ extractLoop frames, ∃ f ∈ frames, ∃ la lo,
        f.isRecord = true ∧ f.positionLat = some la ∧ f.positionLong = some lo ∧
        p = mkPoint f la lo) ∧
    (∀ f ∈ frames, f.isRecord = true → ∀ la lo,
        f.positionLat = some la → f.positionLong = some lo →
        mkPoint f la lo ∈ extractLoop frames) ∧
    (∀ f la lo,
        (mkPoint f la lo).timestamp = f.timestamp ∧
        (mkPoint f la lo).lat = la * COORD_FACTOR ∧
        (mkPoint f la lo).lon = lo * COORD_FACTOR ∧
        (mkPoint f la lo).hr = f.heartRate ∧
        (mkPoint f la lo).cad = f.cadence ∧
        (mkPoint f la lo).temp = f.temperature) := by
  refine ⟨?_, ?_, fun f la lo => ⟨rfl, rfl, rfl, rfl, rfl, rfl⟩⟩
  · induction frames with
    | nil => intro p hp; cases hp
    | cons f fs ih =>
      intro p hp
      unfold extractLoop at hp
      by_cases hr : f.isRecord
      · rw [if_pos hr] at hp
        cases hla : f.positionLat with
        | none =>
          cases hlo : f.positionLong with
          | none =>
            rw [hla, hlo] at hp
            obtain ⟨g, hg, w⟩ := ih p hp
            exact ⟨g, List.mem_cons_of_mem f hg, w⟩
          | some lo =>
            rw [hla, hlo] at hp
            obtain ⟨g, hg, w⟩ := ih p hp
            exact ⟨g, List.mem_cons_of_mem f hg, w⟩
        | some la =>
          cases hlo : f.positionLong with
          | none =>
            rw [hla, hlo] at hp
            obtain ⟨g, hg, w⟩ := ih p hp
            exact ⟨g, List.mem_cons_of_mem f hg, w⟩
          | some lo =>
            rw [hla, hlo] at hp
            rcases List.mem_cons.mp hp with hp | hp
            · exact ⟨f, List.mem_cons_self f fs, la, lo, hr, hla, hlo, hp⟩
            · obtain ⟨g, hg, w⟩ := ih p hp
              exact ⟨g, List.mem_cons_of_mem f hg, w⟩
      · rw [if_neg hr] at hp
        obtain ⟨g, hg, w⟩ := ih p hp
        exact ⟨g, List.mem_cons_of_mem f hg, w⟩
  · induction frames with
    | nil => intro f hf; cases hf
    | cons g gs ih =>
      intro f hf hr la lo hla hlo
      unfold extractLoop
      rcases List.mem_cons.mp hf with hf | hf
      · subst hf
        rw [if_pos hr, hla, hlo]
        exact List.mem_cons_self _ _
      · have hmem := ih f hf hr la lo hla hlo
        by_cases hgr : g.isRecord
        · rw [if_pos hgr]
          cases hgla : g.positionLat with
          | none =>
            cases hglo : g.positionLong with
            | none => exact hmem
            | some _ => exact hmem
          | some _ =>
            cases hglo : g.positionLong with
            | none => exact hmem
            | some _ => exact List.mem_cons_of_mem _ hmem
        · rw [if_neg hgr]
          exact hmem

section DecideSupport5

attribute [local semireducible] Rat.mul Rat.add Rat.sub Rat.inv Rat.ofScientific

/-- Witness for claim C10: a record frame with position but no timestamp is
emitted, and the emitted sample's timestamp is absent. -/
theorem C10_witness :
    mkPoint sampleFrameNoTime 0 0 ∈ extractLoop [sampleFrameNoTime] ∧
    (mkPoint sampleFrameNoTime 0 0).timestamp = none :=
  ⟨(C10_extract_requires_only_position [sampleFrameNoTime]).2.1 sampleFrameNoTime
      (by decide) rfl 0 0 rfl rfl,
    rfl⟩

end DecideSupport5

/-! ## Merge lemmas -/

theorem tsLE_refl (a : Option Int) : tsLE a a = true := by
  cases a <;> simp [tsLE]

theorem tsLE_trans (a b c : Option Int) (h1 : tsLE a b) (h2 : tsLE b c) :
    tsLE a c = true := by
  cases a <;> cases b <;> cases c <;> simp_all [tsLE] <;> omega

theorem tsLE_total (a b : Option Int) : tsLE a b || tsLE b a := by
  cases a <;> cases b <;> simp [tsLE] <;> omega

theorem tsLT_of_le_ne (a b : Option Int) (h1 : tsLE a b = true) (h2 : a ≠ b) :
    tsLT a b := by
  cases a with
  | none =>
    cases b with
    | none => exact absurd rfl h2
    | some b' => simp [tsLE] at h1
  | some a' =>
    cases b with
    | none => trivial
    | some b' =>
      simp only [tsLE, decide_eq_true_eq] at h1
      simp only [Ne, Option.some.injEq] at h2
      simp only [tsLT]
      omega

theorem ptLE_trans (a b c : Point) (h1 : ptLE a b) (h2 : ptLE b c) :
    ptLE a c = true :=
  tsLE_trans a.timestamp b.timestamp c.timestamp h1 h2

theorem ptLE_total (a b : Point) : ptLE a b || ptLE b a :=
  tsLE_total a.timestamp b.timestamp

theorem dropDuplicatesAux_sublist (l : List Point) :
    ∀ seen, List.Sublist (dropDuplicatesAux seen l) l := by
  induction l with
  | nil => intro seen; simp [dropDuplicatesAux]
  | cons p ps ih =>
    intro seen
    unfold dropDuplicatesAux
    by_cases h : p.timestamp ∈ seen
    · rw [if_pos h]
      exact (ih seen).cons p
    · rw [if_neg h]
      exact (ih (p.timestamp :: seen)).cons₂ p

theorem dropDuplicatesAux_ts_notMem (l : List Point) :
    ∀ seen p, p ∈ dropDuplicatesAux seen l → p.timestamp ∉ seen := by
  induction l with
  | nil => intro seen p hp; cases hp
  | cons x xs ih =>
    intro seen p hp
    unfold dropDuplicatesAux at hp
    by_cases h : x.timestamp ∈ seen
    · rw [if_pos h] at hp
      exact ih seen p hp
    · rw [if_neg h] at hp
      rcases List.mem_cons.mp hp with hp | hp
      · subst hp; exact h
      · intro hmem
        exact ih (x.timestamp :: seen) p hp (List.mem_cons_of_mem _ hmem)

theorem dropDuplicatesAux_pairwise_ne (l : List Point) :
    ∀ seen, (dropDuplicatesAux seen l).Pairwise
      (fun p q => p.timestamp ≠ q.timestamp) := by
  induction l with
  | nil => intro seen; simp [dropDuplicatesAux]
  | cons x xs ih =>
    intro seen
    unfold dropDuplicatesAux
    by_cases h : x.timestamp ∈ seen
    · rw [if_pos h]
      exact ih seen
    · rw [if_neg h]
      refine List.Pairwise.cons ?_ (ih (x.timestamp :: seen))
      intro q hq hqx
      exact dropDuplicatesAux_ts_notMem xs (x.timestamp :: seen) q hq
        (by rw [← hqx]; exact List.mem_cons_self _ _)

theorem dropDuplicatesAux_find? (l : List Point) :
    ∀ seen p, p ∈ dropDuplicatesAux seen l →
      l.find? (fun q => q.timestamp == p.timestamp) = some p := by
  induction l with
  | nil => intro seen p hp; cases hp
  | cons x xs ih =>
    intro seen p hp
    unfold dropDuplicatesAux at hp
    by_cases h : x.timestamp ∈ seen
    · rw [if_pos h] at hp
      have hne : x.timestamp ≠ p.timestamp := by
        intro he
        exact dropDuplicatesAux_ts_notMem xs seen p hp (he ▸ h)
      rw [List.find?_cons_of_neg _ (by simp [hne]), ih seen p hp]
    · rw [if_neg h] at hp
      rcases List.mem_cons.mp hp with hp | hp
      · subst hp
        rw [List.find?_cons_of_pos _ (by simp)]
      · have hne : x.timestamp ≠ p.timestamp := by
          intro he
          exact dropDuplicatesAux_ts_notMem xs (x.timestamp :: seen) p hp
            (he ▸ List.mem_cons_self _ _)
        rw [List.find?_cons_of_neg _ (by simp [hne]),
          ih (x.timestamp :: seen) p hp]

theorem dropDuplicatesAux_exists_of_mem (l : List Point) :
    ∀ seen t, (∃ p ∈ l, p.timestamp = t) → t ∉ seen →
      ∃ q ∈ dropDuplicatesAux seen l, q.timestamp = t := by
  induction l with
  | nil =>
    intro seen t ht _
    obtain ⟨p, hp, _⟩ := ht
    cases hp
  | cons x xs ih =>
    intro seen t ht hts
    unfold dropDuplicatesAux
    by_cases h : x.timestamp ∈ seen
    · rw [if_pos h]
      obtain ⟨p, hp, hpt⟩ := ht
      rcases List.mem_cons.mp hp with hp | hp
      · subst hp
        exact absurd (hpt ▸ h) hts
      · exact ih seen t ⟨p, hp, hpt⟩ hts
    · rw [if_neg h]
      by_cases hxt : x.timestamp = t
      · exact ⟨x, List.mem_cons_self _ _, hxt⟩
      · obtain ⟨p, hp, hpt⟩ := ht
        rcases List.mem_cons.mp hp with hp | hp
        · exact absurd (hp ▸ hpt) hxt
        · obtain ⟨q, hq, hqt⟩ := ih (x.timestamp :: seen) t ⟨p, hp, hpt⟩
            (by simp [hxt, hts, List.mem_cons]; exact fun he => hxt he.symm)
          exact ⟨q, List.mem_cons_of_mem _ hq, hqt⟩

/-- Claim C1, counterexample: two one-sample sources whose samples share
timestamp 100, ptA from the first source and ptB from the second. The
source sorts with pandas sort_values under its default, unstable quicksort
kind, whose contract admits the sorted permutation [ptB, ptA]; on it the
keep-first drop_duplicates keeps ptB, while the claimed first-source-wins
rule demands ptA, the first sample of the concatenation with that
timestamp. -/
theorem C1_counterexample :
    sortedByTimestampRel (([[ptA], [ptB]] : List (List Point)).flatten)
      [ptB, ptA] ∧
    drop_duplicates [ptB, ptA] = [ptB] ∧
    ([[ptA], [ptB]] : List (List Point)).flatten.find?
      (fun q => q.timestamp == ptB.timestamp) = some ptA ∧
    ptA ≠ ptB := by
  refine ⟨⟨?_, ?_⟩, by decide, by decide, by decide⟩
  · exact (List.Perm.swap ptB ptA []).symm
  · refine List.Pairwise.cons ?_ (List.pairwise_singleton _ _)
    intro q hq
    rw [List.mem_singleton.mp hq]
    decide

/-- Claim C1, amended: the merge concatenates the sources in their given
order, sorts the combined sequence by timestamp, and keeps, for each
distinct timestamp, exactly the first sample in post-sort order; because
the default sort is not stable, that sample need not be the first in
pre-sort order (first-source-wins would require a stable sort). For every
sort outcome admitted by the contract, every kept sample is an input
sample, the set of output timestamps equals the set of timestamps of the
concatenation, and that set is unchanged by reordering the sources or by
the sort's choice of tie order. -/
theorem C1_amended_dedup_and_timestamp_set (sources : List (List Point))
    (sorted : List Point)
    (hs : sortedByTimestampRel sources.flatten sorted) :
    (∀ p ∈ drop_duplicates sorted,
        sorted.find? (fun q => q.timestamp == p.timestamp) = some p) ∧
    (∀ p ∈ drop_duplicates sorted, p ∈ sources.flatten) ∧
    (∀ t : Option Int,
        (∃ p ∈ drop_duplicates sorted, p.timestamp = t) ↔
        (∃ p ∈ sources.flatten, p.timestamp = t)) ∧
    (∀ (sources' : List (List Point)) (sorted' : List Point),
        sources.Perm sources' →
        sortedByTimestampRel sources'.flatten sorted' →
        ∀ t : Option Int,
          ((∃ p ∈ drop_duplicates sorted, p.timestamp = t) ↔
           (∃ p ∈ drop_duplicates sorted', p.timestamp = t))) := by
  have key : ∀ (ss : List (List Point)) (srtd : List Point),
      sortedByTimestampRel ss.flatten srtd →
      ∀ t : Option Int,
        (∃ p ∈ drop_duplicates srtd, p.timestamp = t) ↔
        (∃ p ∈ ss.flatten, p.timestamp = t) := by
    intro ss srtd h t
    constructor
    · rintro ⟨p, hp, hpt⟩
      exact ⟨p, h.1.mem_iff.mp ((dropDuplicatesAux_sublist _ []).mem hp), hpt⟩
    · rintro ⟨p, hp, hpt⟩
      exact dropDuplicatesAux_exists_of_mem srtd [] t
        ⟨p, h.1.mem_iff.mpr hp, hpt⟩ (by simp)
  refine ⟨fun p hp => dropDuplicatesAux_find? sorted [] p hp, ?_,
    key sources sorted hs, ?_⟩
  · intro p hp
    exact hs.1.mem_iff.mp ((dropDuplicatesAux_sublist _ []).mem hp)
  · intro sources' sorted' hperm hs' t
    rw [key sources sorted hs t, key sources' sorted' hs' t]
    constructor
    · rintro ⟨p, hp, hpt⟩
      obtain ⟨l, hl, hpl⟩ := List.mem_flatten.mp hp
      exact ⟨p, List.mem_flatten.mpr ⟨l, hperm.mem_iff.mp hl, hpl⟩, hpt⟩
    · rintro ⟨p, hp, hpt⟩
      obtain ⟨l, hl, hpl⟩ := List.mem_flatten.mp hp
      exact ⟨p, List.mem_flatten.mpr ⟨l, hperm.mem_iff.mpr hl, hpl⟩, hpt⟩

/-- Witness for the amended claim C1 at the two overlapping one-sample
sources and the admissible sorted permutation [ptB, ptA]. -/
theorem C1_amended_witness :
    (∃ p ∈ drop_duplicates [ptB, ptA], p.timestamp = some 100) ↔
    (∃ p ∈ ([[ptA], [ptB]] : List (List Point)).flatten,
      p.timestamp = some 100) :=
  (C1_amended_dedup_and_timestamp_set [[ptA], [ptB]] [ptB, ptA]
    ⟨(List.Perm.swap ptB ptA []).symm,
      List.Pairwise.cons
        (fun q hq => by rw [List.mem_singleton.mp hq]; decide)
        (List.pairwise_singleton _ _)⟩).2.2.1 (some 100)

/-- Claim C2: the merged track has strictly increasing timestamps (missing
timestamps, sorted last, count as a greatest value and at most one can
survive), so no two samples share a timestamp, and its length is at most
the sum of the lengths of the input sequences. -/
theorem C2_merged_strictly_increasing_and_count (sources : List (List Point)) :
    (mergedTrack sources).Pairwise
      (fun p q => tsLT p.timestamp q.timestamp) ∧
    (mergedTrack sources).length ≤ (sources.map List.length).sum := by
  constructor
  · have hsorted : (sortByTimestamp sources.flatten).Pairwise
        (fun p q => ptLE p q = true) :=
      List.sorted_mergeSort ptLE_trans ptLE_total sources.flatten
    have hle : (mergedTrack sources).Pairwise (fun p q => ptLE p q = true) :=
      hsorted.sublist (dropDuplicatesAux_sublist _ [])
    have hne : (mergedTrack sources).Pairwise
        (fun p q => p.timestamp ≠ q.timestamp) :=
      dropDuplicatesAux_pairwise_ne _ []
    refine (hle.and hne).imp ?_
    rintro a b ⟨h1, h2⟩
    exact tsLT_of_le_ne _ _ h1 h2
  · calc (mergedTrack sources).length
        ≤ (sortByTimestamp sources.flatten).length :=
          (dropDuplicatesAux_sublist _ []).length_le
      _ = sources.flatten.length := by
          unfold sortByTimestamp
          exact List.length_mergeSort sources.flatten
      _ = (sources.map List.length).sum := List.length_flatten sources

/-! ## Segmentation lemmas -/

theorem tail_chain_append_single (thr : Int) (l : List VPoint) (p : VPoint)
    (h1 : l.tail.Chain' (gapLE thr))
    (h2 : ∀ a, 2 ≤ l.length → l.getLast? = some a → gapLE thr a p) :
    (l ++ [p]).tail.Chain' (gapLE thr) := by
  rcases l with _ | ⟨c, _ | ⟨d, cs⟩⟩
  · simp
  · simp
  · rw [List.cons_append, List.tail_cons, List.chain'_append]
    refine ⟨h1, List.chain'_singleton p, ?_⟩
    intro x hx y hy
    simp only [List.head?_cons, Option.mem_def, Option.some.injEq] at hy
    subst hy
    refine h2 x (by simp) ?_
    rw [List.getLast?_cons_cons]
    exact hx

theorem segStep_inv (thr : Int) (st : SegState) (p : VPoint)
    (rest : List VPoint) (h : SegInv thr st (p :: rest)) :
    SegInv thr (segStep thr st p rest.head?) rest := by
  obtain ⟨h1, h2, h3, h4, h5⟩ := h
  have htail : (st.current ++ [p]).tail.Chain' (gapLE thr) :=
    tail_chain_append_single thr st.current p h3
      (fun a hlen hlast => h4 a p hlen hlast rfl)
  have hheadlink : ∀ s a, st.emitted.getLast? = some s → s.getLast? = some a →
      ∀ b, (st.current ++ [p]).head? = some b → thr < b.time - a.time := by
    intro s a hs ha b hb
    rcases hc : st.current with _ | ⟨c, cs⟩
    · rw [hc] at hb
      simp only [List.nil_append, List.head?_cons, Option.some.injEq] at hb
      subst hb
      exact (h5 s a hs ha).2 hc p rfl
    · rw [hc] at hb
      simp only [List.cons_append, List.head?_cons, Option.some.injEq] at hb
      subst hb
      exact (h5 s a hs ha).1 c (by rw [hc]; rfl)
  have hemit1 : ∀ s, s ∈ st.emitted ++ [st.current ++ [p]] →
      1 < (st.current ++ [p]).length →
      1 < s.length ∧ s.tail.Chain' (gapLE thr) := by
    intro s hs hlen
    rcases List.mem_append.mp hs with hs | hs
    · exact h1 s hs
    · rw [List.mem_singleton.mp hs]
      exact ⟨hlen, htail⟩
  have hemit2 : (st.emitted ++ [st.current ++ [p]]).Chain' (boundaryGT thr) := by
    rw [List.chain'_append]
    refine ⟨h2, List.chain'_singleton _, ?_⟩
    intro x hx y hy
    simp only [List.head?_cons, Option.mem_def, Option.some.injEq] at hy
    subst hy
    intro a b hxa hcb
    exact hheadlink x a hx hxa b hcb
  cases rest with
  | nil =>
    simp only [List.head?_nil]
    by_cases hlen : 1 < (st.current ++ [p]).length
    · have hne : st.current ≠ [] := by
        intro hnil
        rw [hnil] at hlen
        simp at hlen
      have hstep : segStep thr st p none =
          ⟨st.emitted ++ [st.current ++ [p]], [], st.idx + 1⟩ := by
        simp [segStep, hlen, hne]
      rw [hstep]
      refine ⟨fun s hs => hemit1 s hs hlen, hemit2, List.chain'_nil, ?_, ?_⟩
      · intro a b hlen2 _ _
        simp at hlen2
      · intro s a _ _
        exact ⟨fun b hb => by simp at hb, fun _ b hb => by simp at hb⟩
    · have hnil : st.current = [] := by
        rcases hcc : st.current with _ | ⟨c, cs⟩
        · rfl
        · exfalso
          apply hlen
          rw [hcc]
          simp
      have hstep : segStep thr st p none =
          ⟨st.emitted, st.current ++ [p], st.idx⟩ := by
        simp [segStep, hlen, hnil]
      rw [hstep]
      refine ⟨h1, h2, htail, ?_, ?_⟩
      · intro a b _ _ hb
        simp at hb
      · intro s a hs ha
        exact ⟨hheadlink s a hs ha, fun hnil2 => by simp at hnil2⟩
  | cons q rest' =>
    simp only [List.head?_cons]
    by_cases hbrk : thr < q.time - p.time
    · by_cases hlen : 1 < (st.current ++ [p]).length
      · have hne : st.current ≠ [] := by
          intro hnil
          rw [hnil] at hlen
          simp at hlen
        have hstep : segStep thr st p (some q) =
            ⟨st.emitted ++ [st.current ++ [p]], [], st.idx + 1⟩ := by
          simp [segStep, hbrk, hlen, hne]
        rw [hstep]
        refine ⟨fun s hs => hemit1 s hs hlen, hemit2, List.chain'_nil, ?_, ?_⟩
        · intro a b hlen2 _ _
          simp at hlen2
        · intro s a hs ha
          refine ⟨fun b hb => by simp at hb, fun _ b hb => ?_⟩
          rw [List.getLast?_concat] at hs
          injection hs with hs
          subst hs
          rw [List.getLast?_concat] at ha
          injection ha with ha
          simp only [List.head?_cons, Option.some.injEq] at hb
          rw [← ha, ← hb]
          exact hbrk
      · have hnil : st.current = [] := by
          rcases hcc : st.current with _ | ⟨c, cs⟩
          · rfl
          · exfalso
            apply hlen
            rw [hcc]
            simp
        have hstep : segStep thr st p (some q) =
            ⟨st.emitted, st.current ++ [p], st.idx⟩ := by
          simp [segStep, hlen, hnil]
        rw [hstep]
        refine ⟨h1, h2, htail, ?_, ?_⟩
        · intro a b hlen2 _ _
          exfalso
          change 2 ≤ (st.current ++ [p]).length at hlen2
          omega
        · intro s a hs ha
          exact ⟨hheadlink s a hs ha, fun hnil2 => by simp at hnil2⟩
    · have hstep : segStep thr st p (some q) =
          ⟨st.emitted, st.current ++ [p], st.idx⟩ := by
        simp [segStep, hbrk]
      rw [hstep]
      refine ⟨h1, h2, htail, ?_, ?_⟩
      · intro a b _ hlast hb
        rw [List.getLast?_concat] at hlast
        injection hlast with hlast
        simp only [List.head?_cons, Option.some.injEq] at hb
        unfold gapLE
        rw [← hlast, ← hb]
        omega
      · intro s a hs ha
        exact ⟨hheadlink s a hs ha, fun hnil2 => by simp at hnil2⟩

theorem segInv_init (thr : Int) (pts : List VPoint) :
    SegInv thr { emitted := [], current := [], idx := 0 } pts := by
  refine ⟨?_, List.chain'_nil, List.chain'_nil, ?_, ?_⟩
  · intro s hs
    simp at hs
  · intro a b hlen2 _ _
    simp at hlen2
  · intro s a hs _
    simp at hs

theorem segLoop_inv (thr : Int) :
    ∀ (pts : List VPoint) (st : SegState), SegInv thr st pts →
      SegInv thr (segLoop thr st pts) [] := by
  intro pts
  induction pts with
  | nil => exact fun st h => h
  | cons p rest ih =>
    intro st h
    exact ih _ (segStep_inv thr st p rest h)

/-- Claim C3, amended: in the segment loop's output, every emitted segment
has more than one sample and respects the gap bound on every internal gap
except possibly the gap right after its first sample (which can exceed the
threshold because a pending one-sample segment is neither emitted nor
cleared at a break, so it is glued onto the following segment), and the
gap between the last sample of emitted segment k and the first sample of
emitted segment k+1 strictly exceeds the threshold. -/
theorem C3_amended_segment_gaps (thr : Int) (points : List VPoint) :
    (∀ s ∈ (drawSegments thr points).emitted,
        1 < s.length ∧ s.tail.Chain' (gapLE thr)) ∧
    (drawSegments thr points).emitted.Chain' (boundaryGT thr) := by
  have h := segLoop_inv thr points _ (segInv_init thr points)
  exact ⟨h.1, h.2.1⟩

/-- Witness for the amended claim C3 at the concrete three-sample input:
the emitted segment has two samples and its tail carries no further gaps. -/
theorem C3_amended_witness :
    1 < ([⟨0, 0, 0⟩, ⟨0, 1, 60⟩] : List VPoint).length ∧
    ([⟨0, 0, 0⟩, ⟨0, 1, 60⟩] : List VPoint).tail.Chain' (gapLE 1700) :=
  (C3_amended_segment_gaps 1700 [⟨0, 0, 0⟩, ⟨0, 1, 60⟩, ⟨0, 2, 1860⟩]).1
    [⟨0, 0, 0⟩, ⟨0, 1, 60⟩] (by decide)

/-! ## Simplifier lemmas -/

theorem dpAux_props (dev : VPoint → VPoint → VPoint → ℚ) (eps : ℚ) :
    ∀ (n : Nat) (a : VPoint) (mid : List VPoint) (b : VPoint),
      mid.length ≤ n →
      (dpAux dev eps a mid b).head? = some a ∧
      (dpAux dev eps a mid b).getLast? = some b ∧
      2 ≤ (dpAux dev eps a mid b).length ∧
      List.Sublist (dpAux dev eps a mid b) (a :: (mid ++ [b])) := by
  intro n
  induction n with
  | zero =>
    intro a mid b hm
    have hmid : mid = [] := List.eq_nil_of_length_eq_zero (Nat.le_zero.mp hm)
    subst hmid
    have he : dpAux dev eps a [] b = [a, b] := by rw [dpAux]
    rw [he]
    exact ⟨rfl, rfl, by simp, by simp⟩
  | succ n ih =>
    intro a mid b hm
    cases mid with
    | nil =>
      have he : dpAux dev eps a [] b = [a, b] := by rw [dpAux]
      rw [he]
      exact ⟨rfl, rfl, by simp, by simp⟩
    | cons m ms =>
      have hm' : ms.length + 1 ≤ n + 1 := by simpa using hm
      by_cases hle : (dpPick dev a b m ms).2 ≤ eps
      · have he : dpAux dev eps a (m :: ms) b = [a, b] := by
          rw [dpAux, if_pos hle]
        rw [he]
        refine ⟨rfl, rfl, by simp, ?_⟩
        rw [show a :: ((m :: ms) ++ [b]) = a :: (m :: ms) ++ [b] from rfl]
        exact List.cons_sublist_cons.mpr (List.sublist_append_right _ _)
      · set k : Nat := (dpPick dev a b m ms).1 with hkdef
        set c : VPoint := (m :: ms).getD k m with hcdef
        have he : dpAux dev eps a (m :: ms) b =
            dpAux dev eps a ((m :: ms).take k) c ++
              (dpAux dev eps c ((m :: ms).drop (k + 1)) b).drop 1 := by
          rw [dpAux, if_neg hle]
        have hkle : k ≤ ms.length := dpPick_fst_le dev a b m ms
        have hlen1 : ((m :: ms).take k).length ≤ n := by
          rw [List.length_take]
          simp only [List.length_cons]
          omega
        have hlen2 : ((m :: ms).drop (k + 1)).length ≤ n := by
          rw [List.length_drop]
          simp only [List.length_cons]
          omega
        set L : List VPoint := dpAux dev eps a ((m :: ms).take k) c with hLdef
        set R : List VPoint := dpAux dev eps c ((m :: ms).drop (k + 1)) b
          with hRdef
        obtain ⟨ih1h, ih1l, ih1len, ih1sub⟩ := ih a ((m :: ms).take k) c hlen1
        obtain ⟨ih2h, ih2l, ih2len, ih2sub⟩ :=
          ih c ((m :: ms).drop (k + 1)) b hlen2
        rw [← hLdef] at ih1h ih1l ih1len ih1sub
        rw [← hRdef] at ih2h ih2l ih2len ih2sub
        obtain ⟨L', hL'⟩ : ∃ t, L = a :: t := by
          cases hcL : L with
          | nil => rw [hcL] at ih1h; simp at ih1h
          | cons x xs =>
            rw [hcL] at ih1h
            simp only [List.head?_cons, Option.some.injEq] at ih1h
            exact ⟨xs, by rw [ih1h]⟩
        obtain ⟨R', hR'⟩ : ∃ t, R = c :: t := by
          cases hcR : R with
          | nil => rw [hcR] at ih2h; simp at ih2h
          | cons x xs =>
            rw [hcR] at ih2h
            simp only [List.head?_cons, Option.some.injEq] at ih2h
            exact ⟨xs, by rw [ih2h]⟩
        have hR'ne : R' ≠ [] := by
          intro hnil
          rw [hR', hnil] at ih2len
          simp at ih2len
        have hRdrop : R.drop 1 = R' := by
          rw [hR']
          rfl
        have hR'last : R'.getLast? = some b := by
          cases hR'c : R' with
          | nil => exact absurd hR'c hR'ne
          | cons y ys =>
            rw [hR', hR'c, List.getLast?_cons_cons] at ih2l
            exact ih2l
        have hk : k < (m :: ms).length := by
          simp only [List.length_cons]
          omega
        have hsplit : m :: ms =
            List.take k (m :: ms) ++ c :: List.drop (k + 1) (m :: ms) := by
          rw [hcdef, List.getD_eq_getElem _ _ hk, ← List.drop_eq_getElem_cons hk]
          exact (List.take_append_drop k (m :: ms)).symm
        rw [he, hRdrop, hL']
        refine ⟨by simp, ?_, ?_, ?_⟩
        · rw [List.getLast?_append, hR'last]
          rfl
        · have hR'len : 1 ≤ R'.length := List.length_pos.mpr hR'ne
          simp only [List.length_append, List.length_cons]
          omega
        · have hgroup : a :: ((m :: ms) ++ [b]) =
              (a :: (List.take k (m :: ms) ++ [c])) ++
                (List.drop (k + 1) (m :: ms) ++ [b]) := by
            conv_lhs => rw [hsplit]
            simp
          rw [hgroup]
          have hsubL : List.Sublist (a :: L')
              (a :: (List.take k (m :: ms) ++ [c])) := by
            rw [← hL']
            exact ih1sub
          have hsubR : List.Sublist R'
              (List.drop (k + 1) (m :: ms) ++ [b]) := by
            apply List.cons_sublist_cons.mp
            rw [← hR']
            exact ih2sub
          exact hsubL.append hsubR

/-- Claim C7: the Douglas-Peucker simplifier modelled from the spec (the
implementation is gpxpy's simplify_polyline, outside this repository's
sources) returns, for every deviation measure and every positive tolerance,
a subsequence of its input (each output point a bit-exact input point, in
input order) whose first and last samples are the input's first and last
samples. -/
theorem C7_simplify_subsequence_endpoints
    (dev : VPoint → VPoint → VPoint → ℚ) (eps : ℚ) (heps : 0 < eps)
    (l : List VPoint) :
    List.Sublist (simplifyDP dev eps l) l ∧
    (simplifyDP dev eps l).head? = l.head? ∧
    (simplifyDP dev eps l).getLast? = l.getLast? := by
  cases l with
  | nil => exact ⟨List.Sublist.refl _, rfl, rfl⟩
  | cons a rest =>
    cases rest with
    | nil => exact ⟨List.Sublist.refl _, rfl, rfl⟩
    | cons r rs =>
      obtain ⟨hh, hl, hlen, hsub⟩ := dpAux_props dev eps
        ((r :: rs).dropLast).length a ((r :: rs).dropLast)
        ((r :: rs).getLast (by simp)) (le_refl _)
      have hrl : (r :: rs).dropLast ++ [(r :: rs).getLast (by simp)] =
          r :: rs := List.dropLast_concat_getLast (by simp)
      have hdef : simplifyDP dev eps (a :: r :: rs) =
          dpAux dev eps a ((r :: rs).dropLast)
            ((r :: rs).getLast (by simp)) := rfl
      rw [hdef]
      refine ⟨?_, ?_, ?_⟩
      · have := hsub
        rw [hrl] at this
        exact this
      · rw [hh]
        rfl
      · rw [hl, List.getLast?_cons_cons,
          List.getLast?_eq_getLast (r :: rs) (by simp)]

/-- Witness for claim C7 at a concrete three-point track, tolerance 1 and
the constantly-zero deviation measure. -/
theorem C7_witness :
    List.Sublist
      (simplifyDP (fun _ _ _ => (0 : ℚ)) 1 [⟨0, 0, 0⟩, ⟨0, 1, 60⟩, ⟨0, 2, 120⟩])
      [⟨0, 0, 0⟩, ⟨0, 1, 60⟩, ⟨0, 2, 120⟩] ∧
    (simplifyDP (fun _ _ _ => (0 : ℚ)) 1
        [⟨0, 0, 0⟩, ⟨0, 1, 60⟩, ⟨0, 2, 120⟩]).head? =
      ([⟨0, 0, 0⟩, ⟨0, 1, 60⟩, ⟨0, 2, 120⟩] : List VPoint).head? ∧
    (simplifyDP (fun _ _ _ => (0 : ℚ)) 1
        [⟨0, 0, 0⟩, ⟨0, 1, 60⟩, ⟨0, 2, 120⟩]).getLast? =
      ([⟨0, 0, 0⟩, ⟨0, 1, 60⟩, ⟨0, 2, 120⟩] : List VPoint).getLast? :=
  C7_simplify_subsequence_endpoints (fun _ _ _ => (0 : ℚ)) 1 (by norm_num)
    [⟨0, 0, 0⟩, ⟨0, 1, 60⟩, ⟨0, 2, 120⟩]

/-! ## Binary64 model lemmas -/

theorem natLog2Aux_spec :
    ∀ (fuel n : Nat), 1 ≤ n → n ≤ fuel →
      2 ^ natLog2Aux fuel n ≤ n ∧ n < 2 ^ (natLog2Aux fuel n + 1) := by
  intro fuel
  induction fuel with
  | zero =>
    intro n h1 h2
    omega
  | succ fuel ih =>
    intro n h1 h2
    rw [natLog2Aux]
    by_cases hn : n ≤ 1
    · rw [if_pos hn]
      constructor
      · simpa using h1
      · simpa using by omega
    · rw [if_neg hn]
      have hrec := ih (n / 2) (by omega) (by omega)
      obtain ⟨hlo, hhi⟩ := hrec
      constructor
      · calc 2 ^ (natLog2Aux fuel (n / 2) + 1)
            = 2 ^ natLog2Aux fuel (n / 2) * 2 := by ring
          _ ≤ n / 2 * 2 := by omega
          _ ≤ n := by omega
      · calc n < n / 2 * 2 + 2 := by omega
          _ ≤ (2 ^ (natLog2Aux fuel (n / 2) + 1) - 1) * 2 + 2 := by
              have : n / 2 ≤ 2 ^ (natLog2Aux fuel (n / 2) + 1) - 1 := by omega
              omega
          _ ≤ 2 ^ (natLog2Aux fuel (n / 2) + 1 + 1) := by
              have hps : 2 ^ (natLog2Aux fuel (n / 2) + 1 + 1) =
                  2 ^ (natLog2Aux fuel (n / 2) + 1) * 2 := pow_succ 2 _
              have h2pos : 1 ≤ 2 ^ (natLog2Aux fuel (n / 2) + 1) :=
                Nat.one_le_two_pow
              omega

theorem natLog2_spec (n : Nat) (h : 1 ≤ n) :
    2 ^ natLog2 n ≤ n ∧ n < 2 ^ (natLog2 n + 1) :=
  natLog2Aux_spec n n h (le_refl n)

theorem pow2_eq_zpow (e : Int) : pow2 e = (2 : ℚ) ^ e := by
  unfold pow2
  by_cases he : 0 ≤ e
  · rw [if_pos he]
    push_cast
    rw [← zpow_natCast, Int.toNat_of_nonneg he]
  · rw [if_neg he]
    push_cast
    rw [one_div, ← zpow_natCast, Int.toNat_of_nonneg (by omega), ← zpow_neg,
      neg_neg]

theorem pow2_pos (e : Int) : 0 < pow2 e := by
  rw [pow2_eq_zpow]
  exact zpow_pos (by norm_num) e

theorem pow2_add (e f : Int) : pow2 (e + f) = pow2 e * pow2 f := by
  rw [pow2_eq_zpow, pow2_eq_zpow, pow2_eq_zpow]
  exact zpow_add₀ (by norm_num) e f

theorem pow2_natCast (k : Nat) : pow2 (k : Int) = (2 : ℚ) ^ k := by
  rw [pow2_eq_zpow, zpow_natCast]

theorem floorNonneg_le (q : ℚ) (h : 0 ≤ q) : (floorNonneg q : ℚ) ≤ q := by
  have hden : (0 : ℚ) < (q.den : ℚ) := by
    exact_mod_cast q.den_pos
  have hqd : q * (q.den : ℚ) = (q.num : ℚ) := by
    have h0 : ((q.num : ℚ) / (q.den : ℚ)) * (q.den : ℚ) = (q.num : ℚ) :=
      div_mul_cancel₀ _ (ne_of_gt hden)
    rw [Rat.num_div_den] at h0
    exact h0
  have hnum : ((q.num.toNat : ℕ) : ℚ) = (q.num : ℚ) := by
    exact_mod_cast Int.toNat_of_nonneg (Rat.num_nonneg.mpr h)
  have key : (floorNonneg q : ℚ) * (q.den : ℚ) ≤ q * (q.den : ℚ) := by
    rw [hqd, ← hnum]
    unfold floorNonneg
    exact_mod_cast Nat.div_mul_le_self q.num.toNat q.den
  exact le_of_mul_le_mul_right key hden

theorem lt_floorNonneg_add_one (q : ℚ) (h : 0 ≤ q) :
    q < (floorNonneg q : ℚ) + 1 := by
  have hden : (0 : ℚ) < (q.den : ℚ) := by
    exact_mod_cast q.den_pos
  have hqd : q * (q.den : ℚ) = (q.num : ℚ) := by
    have h0 : ((q.num : ℚ) / (q.den : ℚ)) * (q.den : ℚ) = (q.num : ℚ) :=
      div_mul_cancel₀ _ (ne_of_gt hden)
    rw [Rat.num_div_den] at h0
    exact h0
  have hnum : ((q.num.toNat : ℕ) : ℚ) = (q.num : ℚ) := by
    exact_mod_cast Int.toNat_of_nonneg (Rat.num_nonneg.mpr h)
  have hnat : q.num.toNat < (q.num.toNat / q.den + 1) * q.den := by
    calc q.num.toNat
        = q.den * (q.num.toNat / q.den) + q.num.toNat % q.den :=
          (Nat.div_add_mod _ _).symm
      _ < q.den * (q.num.toNat / q.den) + q.den :=
          Nat.add_lt_add_left (Nat.mod_lt _ q.den_pos) _
      _ = (q.num.toNat / q.den + 1) * q.den := by ring
  have key : q * (q.den : ℚ) < ((floorNonneg q : ℚ) + 1) * (q.den : ℚ) := by
    rw [hqd, ← hnum]
    unfold floorNonneg
    exact_mod_cast hnat
  exact lt_of_mul_lt_mul_right key (le_of_lt hden)

theorem rnEvenNat_bounds (x : ℚ) (h : 0 ≤ x) :
    x - 1 / 2 ≤ (rnEvenNat x : ℚ) ∧ (rnEvenNat x : ℚ) ≤ x + 1 / 2 := by
  have h1 := floorNonneg_le x h
  have h2 := lt_floorNonneg_add_one x h
  unfold rnEvenNat
  by_cases hc1 : x - (floorNonneg x : ℚ) < 1 / 2
  · rw [if_pos hc1]
    constructor <;> linarith
  · rw [if_neg hc1]
    by_cases hc2 : 1 / 2 < x - (floorNonneg x : ℚ)
    · rw [if_pos hc2]
      push_cast
      constructor <;> linarith
    · rw [if_neg hc2]
      by_cases hc3 : floorNonneg x % 2 = 0
      · rw [if_pos hc3]
        constructor <;> linarith
      · rw [if_neg hc3]
        push_cast
        constructor <;> linarith

theorem pow2_zero : pow2 0 = 1 := by
  norm_num [pow2]

theorem pow2_neg_one : pow2 (-1) = 1 / 2 := by
  norm_num [pow2]

theorem pow2_neg_53 : pow2 (-53) = 1 / 2 ^ 53 := by
  rw [pow2_eq_zpow]
  rw [show (-53 : ℤ) = -(53 : ℕ) by norm_num, zpow_neg, zpow_natCast]
  norm_num

theorem ratLog2_spec (q : ℚ) (hq : 0 < q) :
    pow2 (ratLog2 q) ≤ q ∧ q < pow2 (ratLog2 q + 1) := by
  have hnpos : 0 < q.num := Rat.num_pos.mpr hq
  have hnn1 : 1 ≤ q.num.natAbs := Int.natAbs_pos.mpr (ne_of_gt hnpos)
  have hdd1 : 1 ≤ q.den := q.den_pos
  obtain ⟨hA1, hA2⟩ := natLog2_spec q.num.natAbs hnn1
  obtain ⟨hB1, hB2⟩ := natLog2_spec q.den hdd1
  set A := natLog2 q.num.natAbs with hA
  set B := natLog2 q.den with hB
  have hdpos : (0 : ℚ) < (q.den : ℚ) := by exact_mod_cast q.den_pos
  have hnncast : ((q.num.natAbs : ℕ) : ℚ) = (q.num : ℚ) := by
    have h0 : (q.num.natAbs : ℤ) = q.num := Int.natAbs_of_nonneg (le_of_lt hnpos)
    calc ((q.num.natAbs : ℕ) : ℚ) = (((q.num.natAbs : ℕ) : ℤ) : ℚ) :=
          (Int.cast_natCast _).symm
      _ = (q.num : ℚ) := by rw [h0]
  have hqd : q * (q.den : ℚ) = ((q.num.natAbs : ℕ) : ℚ) := by
    rw [hnncast]
    have h0 : ((q.num : ℚ) / (q.den : ℚ)) * (q.den : ℚ) = (q.num : ℚ) :=
      div_mul_cancel₀ _ (ne_of_gt hdpos)
    rw [Rat.num_div_den] at h0
    exact h0
  have haq1 : ((2 : ℚ)) ^ A ≤ ((q.num.natAbs : ℕ) : ℚ) := by exact_mod_cast hA1
  have haq2 : ((q.num.natAbs : ℕ) : ℚ) < 2 ^ (A + 1) := by exact_mod_cast hA2
  have hbq1 : ((2 : ℚ)) ^ B ≤ ((q.den : ℕ) : ℚ) := by exact_mod_cast hB1
  have hbq2 : ((q.den : ℕ) : ℚ) < 2 ^ (B + 1) := by exact_mod_cast hB2
  have hclaim1 : q < pow2 ((A : ℤ) - B + 1) := by
    have hmul : pow2 ((A : ℤ) - B + 1) * pow2 (B : ℤ) = pow2 ((A : ℤ) + 1) := by
      rw [← pow2_add]
      ring_nf
    have hAp1 : pow2 ((A : ℤ) + 1) = (2 : ℚ) ^ (A + 1) := by
      rw [show ((A : ℤ) + 1) = ((A + 1 : ℕ) : ℤ) by push_cast; ring,
        pow2_natCast]
    have hBc : pow2 (B : ℤ) = (2 : ℚ) ^ B := pow2_natCast B
    have key : q * (q.den : ℚ) < pow2 ((A : ℤ) - B + 1) * (q.den : ℚ) := by
      rw [hqd]
      calc ((q.num.natAbs : ℕ) : ℚ) < 2 ^ (A + 1) := haq2
        _ = pow2 ((A : ℤ) - B + 1) * pow2 (B : ℤ) := by rw [hmul, hAp1]
        _ ≤ pow2 ((A : ℤ) - B + 1) * (q.den : ℚ) := by
            apply mul_le_mul_of_nonneg_left
            · rw [hBc]; exact hbq1
            · exact le_of_lt (pow2_pos _)
    exact lt_of_mul_lt_mul_right key (le_of_lt hdpos)
  have hclaim2 : pow2 ((A : ℤ) - B - 1) < q := by
    have hmul : pow2 ((A : ℤ) - B - 1) * pow2 ((B : ℤ) + 1) = pow2 (A : ℤ) := by
      rw [← pow2_add]
      ring_nf
    have hBp1 : pow2 ((B : ℤ) + 1) = (2 : ℚ) ^ (B + 1) := by
      rw [show ((B : ℤ) + 1) = ((B + 1 : ℕ) : ℤ) by push_cast; ring,
        pow2_natCast]
    have hAc : pow2 (A : ℤ) = (2 : ℚ) ^ A := pow2_natCast A
    have key : pow2 ((A : ℤ) - B - 1) * (q.den : ℚ) < q * (q.den : ℚ) := by
      rw [hqd]
      calc pow2 ((A : ℤ) - B - 1) * (q.den : ℚ)
          < pow2 ((A : ℤ) - B - 1) * (2 : ℚ) ^ (B + 1) := by
            exact mul_lt_mul_of_pos_left hbq2 (pow2_pos _)
        _ = pow2 (A : ℤ) := by rw [← hBp1, hmul]
        _ ≤ ((q.num.natAbs : ℕ) : ℚ) := by rw [hAc]; exact haq1
    exact lt_of_mul_lt_mul_right key (le_of_lt hdpos)
  simp only [ratLog2]
  rw [← hA, ← hB]
  by_cases hc : pow2 ((A : ℤ) - B) ≤ q
  · rw [if_pos hc]
    exact ⟨hc, hclaim1⟩
  · rw [if_neg hc]
    constructor
    · exact le_of_lt hclaim2
    · rw [show (A : ℤ) - B - 1 + 1 = (A : ℤ) - B by ring]
      exact not_le.mp hc

theorem fl53_bounds (q : ℚ) (hq : 0 < q) :
    q - q * (1 / 2 ^ 53) ≤ fl53 q ∧ fl53 q ≤ q + q * (1 / 2 ^ 53) := by
  obtain ⟨hk1, hk2⟩ := ratLog2_spec q hq
  have hμpos : 0 < q * pow2 (-(ratLog2 q - 52)) :=
    mul_pos hq (pow2_pos _)
  obtain ⟨hr1, hr2⟩ := rnEvenNat_bounds (q * pow2 (-(ratLog2 q - 52)))
    (le_of_lt hμpos)
  have hfl : fl53 q = (rnEvenNat (q * pow2 (-(ratLog2 q - 52))) : ℚ) *
      pow2 (ratLog2 q - 52) := by
    rw [fl53, if_neg (ne_of_gt hq)]
  have hppos : (0 : ℚ) < pow2 (ratLog2 q - 52) := pow2_pos _
  have hμe : q * pow2 (-(ratLog2 q - 52)) * pow2 (ratLog2 q - 52) = q := by
    rw [mul_assoc, ← pow2_add]
    norm_num [pow2_zero]
  have hhalfe : (1 / 2 : ℚ) * pow2 (ratLog2 q - 52) = pow2 (ratLog2 q - 53) := by
    rw [← pow2_neg_one, ← pow2_add]
    ring_nf
  have hsmall : pow2 (ratLog2 q - 53) ≤ q * (1 / 2 ^ 53) := by
    rw [show ratLog2 q - 53 = ratLog2 q + (-53) by ring, pow2_add, pow2_neg_53]
    exact mul_le_mul_of_nonneg_right hk1 (by norm_num)
  constructor
  · rw [hfl]
    have h1 : (q * pow2 (-(ratLog2 q - 52)) - 1 / 2) * pow2 (ratLog2 q - 52) ≤
        (rnEvenNat (q * pow2 (-(ratLog2 q - 52))) : ℚ) *
          pow2 (ratLog2 q - 52) :=
      mul_le_mul_of_nonneg_right hr1 (le_of_lt hppos)
    calc q - q * (1 / 2 ^ 53)
        ≤ q - pow2 (ratLog2 q - 53) := by linarith
      _ = (q * pow2 (-(ratLog2 q - 52)) - 1 / 2) * pow2 (ratLog2 q - 52) := by
          rw [sub_mul, hμe, hhalfe]
      _ ≤ _ := h1
  · rw [hfl]
    have h2 : (rnEvenNat (q * pow2 (-(ratLog2 q - 52))) : ℚ) *
        pow2 (ratLog2 q - 52) ≤
        (q * pow2 (-(ratLog2 q - 52)) + 1 / 2) * pow2 (ratLog2 q - 52) :=
      mul_le_mul_of_nonneg_right hr2 (le_of_lt hppos)
    calc (rnEvenNat (q * pow2 (-(ratLog2 q - 52))) : ℚ) *
          pow2 (ratLog2 q - 52)
        ≤ (q * pow2 (-(ratLog2 q - 52)) + 1 / 2) * pow2 (ratLog2 q - 52) := h2
      _ = q + pow2 (ratLog2 q - 53) := by
          rw [add_mul, hμe, hhalfe]
      _ ≤ q + q * (1 / 2 ^ 53) := by linarith

theorem fl53_nonneg (q : ℚ) (hq : 0 ≤ q) : 0 ≤ fl53 q := by
  rcases eq_or_lt_of_le hq with hq0 | hqpos
  · rw [← hq0]
    simp [fl53]
  · rw [fl53, if_neg (ne_of_gt hqpos)]
    exact mul_nonneg (Nat.cast_nonneg _) (le_of_lt (pow2_pos _))

theorem fl53_zero : fl53 0 = 0 := by
  simp [fl53]

theorem chartIdx_bounds (i L : Nat) (hi : i < 400) (hL : 400 < L)
    (hcap : L ≤ 2 ^ 40) :
    chartIdx i L ≤ i * L / 400 ∧ i * L / 400 ≤ chartIdx i L + 1 ∧
    (i * L % 400 ≠ 0 → chartIdx i L = i * L / 400) := by
  have hcast400 : ((CHART_POINTS_COUNT : ℕ) : ℚ) = 400 := by
    norm_num [CHART_POINTS_COUNT]
  rcases Nat.eq_zero_or_pos i with hi0 | hip
  · subst hi0
    have hz : chartIdx 0 L = 0 := by
      unfold chartIdx
      rw [hcast400]
      norm_num [fl53_zero]
      unfold floorNonneg
      norm_num
    rw [hz]
    simp
  · unfold chartIdx
    rw [hcast400]
    set u : ℚ := 1 / 2 ^ 53 with hu
    have hu0 : (0 : ℚ) < u := by rw [hu]; norm_num
    have huu : 2 * u + u * u ≤ 3 * u := by rw [hu]; norm_num
    have hLpos : (0 : ℚ) < (L : ℚ) := by
      exact_mod_cast Nat.lt_of_lt_of_le (by norm_num) (le_of_lt hL)
    set x : ℚ := (L : ℚ) / 400 with hx
    have hxpos : 0 < x := by
      rw [hx]
      positivity
    obtain ⟨hs1, hs2⟩ := fl53_bounds x hxpos
    rw [← hu] at hs1 hs2
    set s : ℚ := fl53 x with hs
    have hult : u < 1 := by rw [hu]; norm_num
    have hspos : 0 < s := by nlinarith
    have hipos : (0 : ℚ) < (i : ℚ) := by exact_mod_cast hip
    have hypos : 0 < (i : ℚ) * s := mul_pos hipos hspos
    obtain ⟨ht1, ht2⟩ := fl53_bounds ((i : ℚ) * s) hypos
    rw [← hu] at ht1 ht2
    set t : ℚ := fl53 ((i : ℚ) * s) with ht
    set P : ℚ := (i : ℚ) * x with hP
    have hP0 : (0 : ℚ) ≤ P := by positivity
    have hQup : (i : ℚ) * s ≤ P + P * u := by
      calc (i : ℚ) * s ≤ (i : ℚ) * (x + x * u) :=
            mul_le_mul_of_nonneg_left hs2 (le_of_lt hipos)
        _ = P + P * u := by rw [hP]; ring
    have hQlo : P - P * u ≤ (i : ℚ) * s := by
      calc P - P * u = (i : ℚ) * (x - x * u) := by rw [hP]; ring
        _ ≤ (i : ℚ) * s := mul_le_mul_of_nonneg_left hs1 (le_of_lt hipos)
    have hQu : ((i : ℚ) * s) * u ≤ P * u + P * (u * u) := by
      calc ((i : ℚ) * s) * u ≤ (P + P * u) * u :=
            mul_le_mul_of_nonneg_right hQup (le_of_lt hu0)
        _ = P * u + P * (u * u) := by ring
    have huu' : P * (u * u) ≤ P * u := by
      apply mul_le_mul_of_nonneg_left _ hP0
      nlinarith
    have htup : t ≤ P + P * (3 * u) := by
      calc t ≤ (i : ℚ) * s + ((i : ℚ) * s) * u := ht2
        _ ≤ (P + P * u) + (P * u + P * (u * u)) := add_le_add hQup hQu
        _ = (P + P * (2 * u)) + P * (u * u) := by ring
        _ ≤ (P + P * (2 * u)) + P * u := add_le_add_left huu' _
        _ = P + P * (3 * u) := by ring
    have htlo : P - P * (3 * u) ≤ t := by
      have h1 : (i : ℚ) * s - ((i : ℚ) * s) * u ≤ t := ht1
      calc P - P * (3 * u) = ((P - P * u) - (P * u + P * (u * u))) -
            (P * u - P * (u * u)) := by ring
        _ ≤ ((P - P * u) - (P * u + P * (u * u))) := by
            have : 0 ≤ P * u - P * (u * u) := by linarith
            linarith
        _ ≤ (i : ℚ) * s - ((i : ℚ) * s) * u := by
            have := hQu
            linarith
        _ ≤ t := h1
    have hPcap : P ≤ 2 ^ 40 := by
      calc P ≤ 400 * x := by
            rw [hP]
            apply mul_le_mul_of_nonneg_right _ (le_of_lt hxpos)
            exact_mod_cast le_of_lt hi
        _ = (L : ℚ) := by rw [hx]; ring_nf
        _ ≤ 2 ^ 40 := by exact_mod_cast hcap
    have herr : P * (3 * u) < 1 / 400 := by
      calc P * (3 * u) ≤ 2 ^ 40 * (3 * u) :=
            mul_le_mul_of_nonneg_right hPcap (by positivity)
        _ < 1 / 400 := by rw [hu]; norm_num
    set N : Nat := i * L / 400 with hN
    set ρ : Nat := i * L % 400 with hρ
    have hmod : 400 * N + ρ = i * L := Nat.div_add_mod (i * L) 400
    have hρlt : ρ < 400 := Nat.mod_lt _ (by norm_num)
    have hPval : P = (N : ℚ) + (ρ : ℚ) / 400 := by
      have hcast : ((i * L : ℕ) : ℚ) = 400 * (N : ℚ) + (ρ : ℚ) := by
        exact_mod_cast congrArg (fun n : ℕ => (n : ℚ)) hmod.symm
      rw [hP, hx]
      have hstep : (i : ℚ) * ((L : ℚ) / 400) = ((i * L : ℕ) : ℚ) / 400 := by
        push_cast
        ring
      rw [hstep, hcast]
      ring
    have hPlow : 1 ≤ P := by
      have : (L : ℚ) ≤ (i : ℚ) * (L : ℚ) := le_mul_of_one_le_left
        (le_of_lt hLpos) (by exact_mod_cast hip)
      rw [hP, hx]
      rw [show (i : ℚ) * ((L : ℚ) / 400) = ((i : ℚ) * (L : ℚ)) / 400 by ring]
      rw [le_div_iff₀ (by norm_num)]
      have h400L : (400 : ℚ) ≤ (L : ℚ) := by exact_mod_cast le_of_lt hL
      linarith
    clear_value u x s t P
    have ht0 : (0 : ℚ) ≤ t := by linarith
    have hfn1 := floorNonneg_le t ht0
    have hfn2 := lt_floorNonneg_add_one t ht0
    have hupper : floorNonneg t ≤ N := by
      have htN1 : t < (N : ℚ) + 1 := by
        have hρq : (ρ : ℚ) ≤ 399 := by exact_mod_cast Nat.le_of_lt_succ hρlt
        rw [hPval] at htup
        linarith
      have : (floorNonneg t : ℚ) < (N : ℚ) + 1 := lt_of_le_of_lt hfn1 htN1
      exact_mod_cast Nat.lt_succ_iff.mp (by exact_mod_cast this)
    have hlower : N ≤ floorNonneg t + 1 := by
      have htN2 : (N : ℚ) - 1 < t := by
        have hρq : (0 : ℚ) ≤ (ρ : ℚ) := Nat.cast_nonneg ρ
        rw [hPval] at htlo
        linarith
      have : (N : ℚ) < (floorNonneg t : ℚ) + 2 := by linarith
      have hnat : N < floorNonneg t + 2 := by exact_mod_cast this
      omega
    refine ⟨hupper, hlower, ?_⟩
    intro hρne
    have hρ1 : 1 ≤ ρ := Nat.one_le_iff_ne_zero.mpr (by rw [hρ] at *; exact hρne)
    have htN3 : (N : ℚ) < t := by
      have hρq : (1 : ℚ) ≤ (ρ : ℚ) := by exact_mod_cast hρ1
      rw [hPval] at htlo
      have h1 : (N : ℚ) + (ρ : ℚ) / 400 - 1 / 400 ≤ t + P * (3 * u) - P * (3 * u) := by
        have := htlo
        linarith
      linarith
    have hge : N < floorNonneg t + 1 := by
      have : (N : ℚ) < (floorNonneg t : ℚ) + 1 := lt_trans htN3 hfn2
      exact_mod_cast this
    omega

/-- Claim C6, amended: the downsampler returns the series unchanged when
its length L is at most 400; when L exceeds 400 (and is within the range
where binary64 keeps the analysis exact, L ≤ 2^40) it returns exactly 400
points, where point i is the series element at the float-computed index
int(i * (L/400)) — an in-range index that equals floor(i*L/400) whenever
400 does not divide i*L and is floor(i*L/400) or floor(i*L/400) - 1 when it
does — with its distance rounded to one decimal and its elevation truncated
to an integer metre. -/
theorem C6_amended_downsample (profile : List ProfilePoint)
    (hcap : profile.length ≤ 2 ^ 40) :
    (profile.length ≤ 400 → downsampleChart profile = ChartData.full profile) ∧
    (400 < profile.length →
      ∃ pts, downsampleChart profile = ChartData.sampled pts ∧
        pts.length = 400 ∧
        ∀ i, i < 400 →
          chartIdx i profile.length < profile.length ∧
          chartIdx i profile.length ≤ i * profile.length / 400 ∧
          i * profile.length / 400 ≤ chartIdx i profile.length + 1 ∧
          (i * profile.length % 400 ≠ 0 →
            chartIdx i profile.length = i * profile.length / 400) ∧
          pts[i]? = some
            { x := round1 ((profile.getD (chartIdx i profile.length) ⟨0, 0⟩).x),
              y := pyInt ((profile.getD (chartIdx i profile.length) ⟨0, 0⟩).y) }) := by
  constructor
  · intro hle
    unfold downsampleChart
    rw [if_neg (by simp only [CHART_POINTS_COUNT]; omega)]
  · intro hgt
    refine ⟨(List.range 400).map (fun i =>
        { x := round1 ((profile.getD (chartIdx i profile.length) ⟨0, 0⟩).x),
          y := pyInt ((profile.getD (chartIdx i profile.length) ⟨0, 0⟩).y) }),
      ?_, by simp, ?_⟩
    · unfold downsampleChart
      rw [if_pos (by simp only [CHART_POINTS_COUNT]; omega)]
      rfl
    · intro i hi
      have hb := chartIdx_bounds i profile.length hi hgt hcap
      have hlenpos : 0 < profile.length := by omega
      have hlt : chartIdx i profile.length < profile.length := by
        have h2 : i * profile.length / 400 < profile.length := by
          apply Nat.div_lt_of_lt_mul
          exact (Nat.mul_lt_mul_right hlenpos).mpr hi
        omega
      refine ⟨hlt, hb.1, hb.2.1, hb.2.2, ?_⟩
      rw [List.getElem?_map, List.getElem?_range hi]
      rfl

/-- Witness for the amended claim C6 at a one-point profile, which the
downsampler returns unchanged. -/
theorem C6_amended_witness :
    downsampleChart [⟨0, 0⟩] = ChartData.full [⟨0, 0⟩] :=
  (C6_amended_downsample [⟨0, 0⟩] (by norm_num)).1 (by norm_num)

end FitMerge
